import Mathlib

/-!
# Verification of the phyllotaxis placement engine

Shallow embedding of the simulator core of the phyllotaxis-modelling
repository (`src/sim/simulator.ts`, `src/sim/prng.ts`, `src/sim/kernel.ts`,
`src/sim/config.ts`, `src/sim/validation.ts`) and proofs of the spec's
claims about it.

Modelling conventions:
* JavaScript numbers are modelled as exact rationals (`ℚ`); counts and array
  indices (`angleSamples`, `totalPrimordia`, `batchSize`, loop indices) are
  modelled as `ℕ`, matching their integral use in the source.
* The transcendental `Math` functions (`cos`, `sin`, `sqrt`, `exp`, `log`,
  `pow`) and the constant `Math.PI` are not part of this repository; every
  simulator definition is parameterised over an `Ops` record holding them.
  Any concrete JavaScript engine provides one fixed such record (each float
  result is some rational), so properties proved for all `Ops` hold for the
  real program.
* The external `expr-eval` library (only a `declare module` stub is in the
  repository) is abstracted as a function `ℚ → EvalResult`, where
  `EvalResult` distinguishes a thrown error, a non-finite result and a
  finite value — exactly the three cases `compileKernel`'s custom branch
  discriminates.
* `mulberry32`'s captured `seed` variable is a JS float that grows by
  `0x6D2B79F5` per call without wrapping (only the bitwise reads coerce to
  32 bits); it is modelled as an exact `ℕ`, which matches the float exactly
  for any realistic number of calls (below 2^53).
* The pre-allocated `Float64Array` scratch buffers (`activeXs`/`activeYs`)
  are fully rewritten by `buildActiveArrays` before every read, and the
  precomputed candidate trig tables are pure functions of the init-time
  configuration (which is immutable for the life of the state), so both are
  modelled as recomputed values; the capacity truncation of
  `buildActiveArrays` (buffer length = `totalPrimordia`) is kept.
-/

/-! ## Data model (`src/sim/config.ts`) -/

/-- Custom-kernel scalar parameters (`CustomKernelParams`). -/
structure CustomKernelParams where
  A : ℚ
  lambda : ℚ
  sigma : ℚ
  p : ℚ
  eps : ℚ
  d0 : ℚ
deriving DecidableEq

/-- The kernel specification discriminated union (`KernelConfig`). -/
inductive KernelConfig where
  | exp (A lambda : ℚ)
  | gaussian (A sigma : ℚ)
  | softPower (A p eps : ℚ)
  | hardCoreExp (A lambda d0 : ℚ)
  | custom (expr : String) (params : CustomKernelParams)
deriving DecidableEq

/-- Noise configuration (`SimConfig.noise`). The seed is used only through
32-bit mixing; non-integral seeds are out of scope, so it is a `ℕ`. -/
structure NoiseConfig where
  enabled : Bool
  sigmaThetaDeg : ℚ
  seed : ℕ
deriving DecidableEq

/-- Render configuration (`SimConfig.render`); the engine ignores it, the
validator reads `pointRadius`. -/
structure RenderConfig where
  showRing : Bool
  showMetrics : Bool
  showFieldPlot : Bool
  pointRadius : ℚ
  scaleByDistance : Bool
deriving DecidableEq

/-- Run configuration (`SimConfig`). -/
structure SimConfig where
  R : ℚ
  v : ℚ
  dt : ℚ
  maxR : ℚ
  angleSamples : ℕ
  totalPrimordia : ℕ
  batchSize : ℕ
  kernel : KernelConfig
  noise : NoiseConfig
  render : RenderConfig
deriving DecidableEq

/-- An organ (`Primordium`): radius, birth angle, and the trig values cached
at creation (`ct` = cos theta, `st` = sin theta). -/
structure Primordium where
  r : ℚ
  theta : ℚ
  ct : ℚ
  st : ℚ
deriving DecidableEq

/-! ## Environment: JavaScript `Math` and `expr-eval` -/

/-- Outcome of evaluating a parsed custom expression at a point: the
evaluation throws, returns a non-finite number, or returns a finite value. -/
inductive EvalResult where
  | err
  | nonfinite
  | val (q : ℚ)
deriving DecidableEq

/-- The ambient numeric environment: `Math.PI`, the `Math` functions used by
the engine, and the semantics of a parsed `expr-eval` expression (given the
source text and the bound scalar parameters, a function of `d`). -/
structure Ops where
  pi : ℚ
  cos : ℚ → ℚ
  sin : ℚ → ℚ
  sqrt : ℚ → ℚ
  exp : ℚ → ℚ
  log : ℚ → ℚ
  pow : ℚ → ℚ → ℚ
  customEval : String → CustomKernelParams → ℚ → EvalResult

/-! ## Kernel compilation (`src/sim/kernel.ts`) -/

/-- `HARD_CORE_PENALTY = 1e30` (modelled as the exact rational). -/
def HARD_CORE_PENALTY : ℚ := 10 ^ 30

/-- `CUSTOM_BAD_PENALTY = 1e30` (modelled as the exact rational). -/
def CUSTOM_BAD_PENALTY : ℚ := 10 ^ 30

/-- A compiled kernel (`CompiledKernel`). -/
structure CompiledKernel where
  fn : ℚ → ℚ
  hasHardCore : Bool
  d0 : ℚ

/-- The guarded custom-kernel contribution function: `try { evaluate; if not
finite return CUSTOM_BAD_PENALTY; return result } catch { return
CUSTOM_BAD_PENALTY }`. -/
def customKernelFn (e : ℚ → EvalResult) (d : ℚ) : ℚ :=
  match e d with
  | EvalResult.val q => q
  | EvalResult.err => CUSTOM_BAD_PENALTY
  | EvalResult.nonfinite => CUSTOM_BAD_PENALTY

/-- `compileKernel`: turn a kernel specification into a callable
contribution function plus exclusion metadata. -/
def compileKernel (ops : Ops) (k : KernelConfig) : CompiledKernel :=
  match k with
  | KernelConfig.exp A lambda =>
      { fn := fun d => A * ops.exp (-d / lambda), hasHardCore := false, d0 := 0 }
  | KernelConfig.gaussian A sigma =>
      let twoSigmaSq := 2 * sigma * sigma
      { fn := fun d => A * ops.exp (-(d * d) / twoSigmaSq), hasHardCore := false, d0 := 0 }
  | KernelConfig.softPower A p eps =>
      { fn := fun d => A / (ops.pow d p + eps), hasHardCore := false, d0 := 0 }
  | KernelConfig.hardCoreExp A lambda d0 =>
      { fn := fun d => A * ops.exp (-d / lambda), hasHardCore := true, d0 := d0 }
  | KernelConfig.custom expr params =>
      { fn := customKernelFn (ops.customEval expr params), hasHardCore := false, d0 := 0 }

/-! ## Configuration validation (`src/sim/validation.ts`)

`validateExpression` defers to the external parser; it is abstracted as a
predicate `parseOk : String → Bool` (true iff `exprParser.parse` does not
throw). `isFinite(A)` is always true for a rational, so those checks never
fire in the model. -/

/-- The blocking-error list built by `validateConfig` (warnings are dropped:
only `errors.length === 0` feeds `valid`). -/
def configErrors (parseOk : String → Bool) (cfg : SimConfig) : List String :=
  (if cfg.R ≤ 0 then ["R must be > 0"] else []) ++
  (if cfg.angleSamples < 36 then ["angleSamples must be >= 36"] else []) ++
  (if cfg.totalPrimordia < 2 then ["totalPrimordia must be >= 2"] else []) ++
  (if cfg.batchSize < 1 then ["batchSize must be >= 1"] else []) ++
  (if cfg.maxR ≤ cfg.R then ["maxR must be > R"] else []) ++
  (if cfg.v ≤ 0 then ["v must be > 0"] else []) ++
  (if cfg.dt ≤ 0 then ["dt must be > 0"] else []) ++
  (match cfg.kernel with
   | KernelConfig.exp _ lambda =>
       (if lambda ≤ 0 then ["lambda must be > 0"] else [])
   | KernelConfig.gaussian _ sigma =>
       (if sigma ≤ 0 then ["sigma must be > 0"] else [])
   | KernelConfig.softPower _ p eps =>
       (if p ≤ 0 then ["p must be > 0"] else []) ++
       (if eps < 0 then ["eps must be >= 0"] else [])
   | KernelConfig.hardCoreExp _ lambda d0 =>
       (if lambda ≤ 0 then ["lambda must be > 0"] else []) ++
       (if d0 < 0 then ["d0 must be >= 0"] else [])
   | KernelConfig.custom expr params =>
       (if parseOk expr then [] else ["Invalid expression"]) ++
       (if params.lambda ≤ 0 then ["lambda must be > 0"] else []) ++
       (if params.sigma ≤ 0 then ["sigma must be > 0"] else []) ++
       (if params.p ≤ 0 then ["p must be > 0"] else []) ++
       (if params.eps < 0 then ["eps must be >= 0"] else []) ++
       (if params.d0 < 0 then ["d0 must be >= 0"] else [])) ++
  (if cfg.noise.enabled ∧ cfg.noise.sigmaThetaDeg < 0 then ["noise sigma must be >= 0"] else []) ++
  (if cfg.render.pointRadius ≤ 0 then ["pointRadius must be > 0"] else [])

/-- `validateConfig(cfg).valid` — true iff no blocking error. -/
def validConfig (parseOk : String → Bool) (cfg : SimConfig) : Bool :=
  (configErrors parseOk cfg).isEmpty

/-! ## Seeded PRNG and Gaussian generator (`src/sim/prng.ts`) -/

/-- The output computation of one `mulberry32` call, given the already
advanced captured seed `s`. The JS bitwise operators coerce through
(U)Int32, which on the unsigned bit patterns is arithmetic mod `2^32`;
`>>>` is division by a power of two on the pattern. -/
def mulberry32Output (s : ℕ) : ℚ :=
  let t1 := s % 2 ^ 32
  let t2 := (Nat.xor t1 (t1 / 2 ^ 15) * Nat.lor t1 1) % 2 ^ 32
  let c := (Nat.xor t2 (t2 / 2 ^ 7) * Nat.lor t2 61) % 2 ^ 32
  let t3 := Nat.xor t2 ((t2 + c) % 2 ^ 32)
  ((Nat.xor t3 (t3 / 2 ^ 14) : ℕ) : ℚ) / 4294967296

/-- One call of the closure returned by `mulberry32`: advance the captured
seed by `0x6D2B79F5`, then mix and scale to `[0,1)`. -/
def mulberry32Next (s : ℕ) : ℚ × ℕ :=
  let s' := s + 0x6D2B79F5
  (mulberry32Output s', s')

/-- `GaussianRNG` state: the captured mulberry32 seed plus the cached spare
Box-Muller sample. -/
structure GaussState where
  state : ℕ
  spare : Option ℚ
deriving DecidableEq

namespace GaussianRNG

/-- `new GaussianRNG(seed)`: fresh mulberry32 closure, no spare. -/
def init (seed : ℕ) : GaussState :=
  { state := seed, spare := none }

/-- `GaussianRNG.reset(seed)`: recreate the PRNG closure and clear the
cached spare value. -/
def reset (_g : GaussState) (seed : ℕ) : GaussState :=
  { state := seed, spare := none }

/-- `GaussianRNG.next()`: return the cached spare if present, otherwise draw
two uniforms (the first clamped away from zero), apply Box-Muller, cache the
sine branch and return the cosine branch. -/
def next (ops : Ops) (g : GaussState) : ℚ × GaussState :=
  match g.spare with
  | some v => (v, { g with spare := none })
  | none =>
      let p1 := mulberry32Next g.state
      let u := max p1.1 (1 / 10 ^ 12)
      let p2 := mulberry32Next p1.2
      let r := ops.sqrt (-2 * ops.log u)
      let theta := 2 * ops.pi * p2.1
      (r * ops.cos theta, { state := p2.2, spare := some (r * ops.sin theta) })

/-- The first `n` samples produced from a given generator state. -/
def samples (ops : Ops) : ℕ → GaussState → List ℚ
  | 0, _ => []
  | n + 1, g =>
      let p := next ops g
      p.1 :: samples ops n p.2

end GaussianRNG

/-- `wrapAngle`: wrap an angle into `[0, 2π)` using the JS `%` operator
(remainder truncated toward zero). `twoPi` is the engine's `2 * Math.PI`. -/
def ratTrunc (q : ℚ) : ℤ :=
  if q < 0 then -Int.floor (-q) else Int.floor q

/-- JS `a % b` (truncated remainder). Only used with `b = 2 * Math.PI ≠ 0`. -/
def jsMod (a b : ℚ) : ℚ :=
  a - b * (ratTrunc (a / b) : ℚ)

/-- `wrapAngle(theta)` from `src/sim/prng.ts`. -/
def wrapAngle (twoPi : ℚ) (theta : ℚ) : ℚ :=
  let m := jsMod theta twoPi
  if m < 0 then m + twoPi else m

/-! ## Simulator state and operations (`src/sim/simulator.ts`) -/

/-- The observable simulator state: immutable run configuration, the ordered
organ history, the active-suffix boundary, and the Gaussian generator. -/
structure SimState where
  cfg : SimConfig
  primordia : List Primordium
  firstActiveIndex : ℕ
  rng : GaussState

namespace Simulator

/-- `new Simulator()` + `init(cfg)`: empty history, boundary 0, PRNG seeded
from the configuration. -/
def initState (cfg : SimConfig) : SimState :=
  { cfg := cfg, primordia := [], firstActiveIndex := 0,
    rng := GaussianRNG.init cfg.noise.seed }

/-- `addPrimordium(theta)`: append an organ at ring radius `R` with cached
trig. -/
def addPrimordium (ops : Ops) (theta : ℚ) (s : SimState) : SimState :=
  { s with primordia :=
      s.primordia ++ [{ r := s.cfg.R, theta := theta, ct := ops.cos theta, st := ops.sin theta }] }

/-- `reset()`: clear history and boundary, reseed the PRNG, add the first
organ at angle 0. -/
def reset (ops : Ops) (s : SimState) : SimState :=
  addPrimordium ops 0
    { cfg := s.cfg, primordia := [], firstActiveIndex := 0,
      rng := GaussianRNG.reset s.rng s.cfg.noise.seed }

/-- `driftAllPrimordia()`: add `v * dt` to every organ's radius. -/
def driftAllPrimordia (s : SimState) : SimState :=
  { s with primordia :=
      s.primordia.map (fun p => { p with r := p.r + s.cfg.v * s.cfg.dt }) }

/-- The `advanceFirstActiveIndex` while loop, with fuel (the loop runs at
most `primordia.length - i` times; fuel `primordia.length` is always
enough). -/
def advanceLoop (maxR : ℚ) (ps : List Primordium) : ℕ → ℕ → ℕ
  | 0, i => i
  | fuel + 1, i =>
      match ps.get? i with
      | some p => if maxR < p.r then advanceLoop maxR ps fuel (i + 1) else i
      | none => i

/-- `advanceFirstActiveIndex()`: skip organs that drifted beyond `maxR`. -/
def advanceFirstActiveIndex (s : SimState) : SimState :=
  { s with firstActiveIndex :=
      advanceLoop s.cfg.maxR s.primordia s.primordia.length s.firstActiveIndex }

/-- `buildActiveArrays()`: the Cartesian coordinates of the active suffix,
truncated at the pre-allocated buffer capacity (`totalPrimordia`). -/
def buildActiveArrays (s : SimState) : List (ℚ × ℚ) :=
  ((s.primordia.drop s.firstActiveIndex).take s.cfg.totalPrimordia).map
    (fun p => (p.r * p.ct, p.r * p.st))

/-- Candidate angle `i * (2π / angleSamples)` (precomputed at init in the
source; the table entries are exactly these values). -/
def candAngle (ops : Ops) (cfg : SimConfig) (i : ℕ) : ℚ :=
  (i : ℚ) * (2 * ops.pi / (cfg.angleSamples : ℚ))

/-- The inner summation loop of `fieldAtIndex`, with the hard-core early
exit. -/
def fieldLoop (ops : Ops) (k : CompiledKernel) (cx cy : ℚ) :
    List (ℚ × ℚ) → ℚ → ℚ
  | [], acc => acc
  | q :: rest, acc =>
      let dx := cx - q.1
      let dy := cy - q.2
      let d := ops.sqrt (dx * dx + dy * dy)
      if k.hasHardCore ∧ d < k.d0 then HARD_CORE_PENALTY
      else fieldLoop ops k cx cy rest (acc + k.fn d)

/-- `fieldAtIndex(i)`: the inhibition field at candidate angle `i` over the
current active set. -/
def fieldAtIndex (ops : Ops) (s : SimState) (i : ℕ) : ℚ :=
  fieldLoop ops (compileKernel ops s.cfg.kernel)
    (s.cfg.R * ops.cos (candAngle ops s.cfg i))
    (s.cfg.R * ops.sin (candAngle ops s.cfg i))
    (buildActiveArrays s) 0

/-- The field value at every candidate index (the values scanned by the
minimum-finding pass). -/
def candidateFieldValues (ops : Ops) (s : SimState) : List ℚ :=
  (List.range s.cfg.angleSamples).map (fieldAtIndex ops s)

/-- The single ascending scan for the discrete minimum: `minVal` starts at
`Infinity` (modelled by `none`, as every exact field value is below it) and
is replaced only on strict `<`. Returns `(minVal, iMin)`. -/
def scanMinAux : List ℚ → ℕ → Option (ℚ × ℕ) → Option (ℚ × ℕ)
  | [], _, best => best
  | v :: rest, i, none => scanMinAux rest (i + 1) (some (v, i))
  | v :: rest, i, some (b, bi) =>
      scanMinAux rest (i + 1) (some (if v < b then (v, i) else (b, bi)))

/-- The discrete-minimum scan over a value list. -/
def discreteMin (vals : List ℚ) : Option (ℚ × ℕ) :=
  scanMinAux vals 0 none

/-- Parabolic sub-sample refinement of the discrete minimum index `m` with
neighbor values `f0, f2` and center value `f1`: refine only when the
denominator is safely away from zero, clamping the offset to `[-1/2, 1/2]`. -/
def refineIndex (m : ℕ) (f0 f1 f2 : ℚ) : ℚ :=
  let denom := 2 * (f0 - 2 * f1 + f2)
  if 1 / 10 ^ 12 < |denom| then
    (m : ℚ) + max (-(1 : ℚ) / 2) (min (1 / 2) ((f0 - f2) / denom))
  else (m : ℚ)

/-- Convert a (possibly fractional) candidate index to an angle and wrap it
into `[0, 2π)` by the two conditional corrections of the source. -/
def indexToAngle (twoPi : ℚ) (n : ℕ) (idx : ℚ) : ℚ :=
  let theta := idx * (twoPi / (n : ℚ))
  let theta2 := if theta < 0 then theta + twoPi else theta
  if twoPi ≤ theta2 then theta2 - twoPi else theta2

/-- `findMinimumFieldAngle()`: scan for the discrete minimum, refine it
parabolically using the circularly adjacent neighbors, convert to an angle.
(The `none` branch is unreachable: every configuration the host can apply
has `angleSamples ≥ 36`; at `angleSamples = 0` the source would index out of
bounds.) -/
def findMinimumFieldAngle (ops : Ops) (s : SimState) : ℚ :=
  let n := s.cfg.angleSamples
  let vals := candidateFieldValues ops s
  match discreteMin vals with
  | none => 0
  | some b =>
      let iMin := b.2
      let iL := if iMin = 0 then n - 1 else iMin - 1
      let iR := if iMin = n - 1 then 0 else iMin + 1
      let f0 := vals.getD iL 0
      let f2 := vals.getD iR 0
      indexToAngle (2 * ops.pi) n (refineIndex iMin f0 b.1 f2)

/-- The state on which `step()` evaluates the field: after drifting all
organs and advancing the active boundary (`buildActiveArrays` is modelled as
a pure view of this state). -/
def prepped (s : SimState) : SimState :=
  advanceFirstActiveIndex (driftAllPrimordia s)

/-- The discrete minimum index chosen by the field-evaluation pass of a
`step()` from `s`. -/
def chosenIndex (ops : Ops) (s : SimState) : ℕ :=
  match discreteMin (candidateFieldValues ops (prepped s)) with
  | none => 0
  | some b => b.2

/-- The field value at the discrete angle chosen by a `step()` from `s`. -/
def chosenFieldValue (ops : Ops) (s : SimState) : ℚ :=
  fieldAtIndex ops (prepped s) (chosenIndex ops s)

/-- `step()`: no-op when the target organ count is reached; otherwise drift,
advance the boundary, locate the minimum-field angle, apply noise if
enabled, and append the new organ. -/
def step (ops : Ops) (s : SimState) : SimState :=
  if s.cfg.totalPrimordia ≤ s.primordia.length then s
  else
    let s1 := prepped s
    let theta0 := findMinimumFieldAngle ops s1
    if s.cfg.noise.enabled then
      let p := GaussianRNG.next ops s1.rng
      let noiseRad := p.1 * (s.cfg.noise.sigmaThetaDeg * ops.pi / 180)
      addPrimordium ops (wrapAngle (2 * ops.pi) (theta0 + noiseRad)) { s1 with rng := p.2 }
    else
      addPrimordium ops theta0 s1

/-- `n` consecutive `step()` calls. -/
def stepN (ops : Ops) : ℕ → SimState → SimState
  | 0, s => s
  | n + 1, s => step ops (stepN ops n s)

/-- `isComplete()`. -/
def isComplete (s : SimState) : Bool :=
  s.cfg.totalPrimordia ≤ s.primordia.length

/-- The `runBatch` while loop (`while primordia.length < batchEnd`),
carrying the running step count. Fuel: the loop body always grows the organ
count by one (proved below), so `batchSize` iterations always suffice. -/
def runBatchLoop (ops : Ops) : ℕ → SimState → ℕ → ℕ → SimState × ℕ
  | 0, s, _, c => (s, c)
  | fuel + 1, s, batchEnd, c =>
      if s.primordia.length < batchEnd then
        runBatchLoop ops fuel (step ops s) batchEnd (c + 1)
      else (s, c)

/-- `runBatch()`: step until the batch is consumed or the target count is
reached; return the number of steps performed. -/
def runBatch (ops : Ops) (s : SimState) : SimState × ℕ :=
  runBatchLoop ops s.cfg.batchSize s
    (min (s.primordia.length + s.cfg.batchSize) s.cfg.totalPrimordia) 0

end Simulator

/-! ## Concrete instances for witnesses and the counterexample -/

/-- A trivial numeric environment used to instantiate universally quantified
theorems on concrete inputs. -/
def opsZero : Ops :=
  { pi := 0, cos := fun _ => 0, sin := fun _ => 0, sqrt := fun _ => 0,
    exp := fun _ => 0, log := fun _ => 0, pow := fun _ _ => 0,
    customEval := fun _ _ _ => EvalResult.val 0 }

/-- A small run configuration for fast concrete evaluation (noise disabled,
one candidate angle, three organs). -/
def cfgSmall : SimConfig :=
  { R := 1, v := 1, dt := 1, maxR := 3, angleSamples := 1, totalPrimordia := 3,
    batchSize := 2, kernel := KernelConfig.exp 1 1,
    noise := { enabled := false, sigmaThetaDeg := 0, seed := 0 },
    render := { showRing := true, showMetrics := true, showFieldPlot := false,
                pointRadius := 5, scaleByDistance := true } }

/-- A fresh engine state over `cfgSmall`. -/
def simA : SimState := Simulator.initState cfgSmall

/-- A dirty engine state over the same configuration as `simA` (stale
history, boundary and generator), to exercise determinism of `reset`. -/
def simB : SimState :=
  { cfg := cfgSmall,
    primordia := [{ r := 7, theta := 1, ct := 2, st := 3 }],
    firstActiveIndex := 5, rng := { state := 99, spare := some 4 } }

/-- A state over `cfgSmall` that has already reached the target count. -/
def simFull : SimState :=
  { cfg := cfgSmall,
    primordia := [{ r := 3, theta := 0, ct := 1, st := 0 },
                  { r := 2, theta := 0, ct := 1, st := 0 },
                  { r := 1, theta := 0, ct := 1, st := 0 }],
    firstActiveIndex := 0, rng := { state := 0, spare := none } }

/-- Rational stand-ins for the `Math` functions (truncated Taylor series for
cos, sin, exp; one Heron iteration for sqrt; `pi` is the classical 355/113).
Any real JavaScript engine returns some rational for each call; the
counterexample below is insensitive to the quality of these approximations
because every computed candidate-to-organ distance stays several orders of
magnitude below the exclusion radius of its configuration. -/
def opsCE : Ops :=
  { pi := 355 / 113,
    cos := fun q => 1 - q ^ 2 / 2,
    sin := fun q => q - q ^ 3 / 6,
    sqrt := fun q => if q ≤ 0 then 0 else ((q + 1) / 2 + q / ((q + 1) / 2)) / 2,
    exp := fun q => 1 + q + q ^ 2 / 2,
    log := fun q => q - 1,
    pow := fun q _ => q,
    customEval := fun _ _ _ => EvalResult.val 0 }

/-- A configuration that passes `validateConfig` with no blocking error (the
validator only warns when `d0 ≥ R`) whose hard-core exclusion radius `d0 =
10^6` dwarfs the whole geometry, so every candidate angle lies within `d0`
of the first organ. -/
def cfgCE : SimConfig :=
  { R := 1, v := 1, dt := 1, maxR := 3, angleSamples := 36,
    totalPrimordia := 10, batchSize := 5,
    kernel := KernelConfig.hardCoreExp 1 1 1000000,
    noise := { enabled := false, sigmaThetaDeg := 0, seed := 12345 },
    render := { showRing := true, showMetrics := true, showFieldPlot := false,
                pointRadius := 5, scaleByDistance := true } }

/-- The state right after `reset()` on a freshly initialized engine over
`cfgCE` — reachable, and not yet complete (one organ of ten). -/
def sCE : SimState := Simulator.reset opsCE (Simulator.initState cfgCE)

/-! ## Helper lemmas -/

/-- Stepping never changes the run configuration. -/
theorem step_cfg (ops : Ops) (s : SimState) : (Simulator.step ops s).cfg = s.cfg := by
  unfold Simulator.step
  split
  · rfl
  · split <;> rfl

/-- When the target count is reached, `step` returns the state unchanged. -/
theorem step_of_complete (ops : Ops) (s : SimState)
    (h : s.cfg.totalPrimordia ≤ s.primordia.length) : Simulator.step ops s = s := by
  unfold Simulator.step
  rw [if_pos h]

/-- Below the target count, `step` appends exactly one organ. -/
theorem step_length_of_lt (ops : Ops) (s : SimState)
    (h : s.primordia.length < s.cfg.totalPrimordia) :
    (Simulator.step ops s).primordia.length = s.primordia.length + 1 := by
  unfold Simulator.step
  rw [if_neg (by omega)]
  by_cases hn : s.cfg.noise.enabled <;>
    simp [hn, Simulator.addPrimordium, Simulator.prepped,
      Simulator.advanceFirstActiveIndex, Simulator.driftAllPrimordia]

/-- Below the target count, the organ history after a step is the drifted
history with one fresh organ (at ring radius `R`, with cached trig) appended. -/
theorem step_primordia_of_lt (ops : Ops) (s : SimState)
    (h : s.primordia.length < s.cfg.totalPrimordia) :
    ∃ theta, (Simulator.step ops s).primordia
      = (s.primordia.map (fun p => { p with r := p.r + s.cfg.v * s.cfg.dt }))
        ++ [{ r := s.cfg.R, theta := theta, ct := ops.cos theta, st := ops.sin theta }] := by
  unfold Simulator.step
  rw [if_neg (by omega)]
  by_cases hn : s.cfg.noise.enabled
  · rw [if_pos hn]
    exact ⟨_, rfl⟩
  · rw [if_neg hn]
    exact ⟨_, rfl⟩

/-- Resetting two states with the same configuration yields the same state:
`reset` rebuilds every mutable field from the configuration alone. -/
theorem reset_eq_of_cfg_eq (ops : Ops) {s t : SimState} (h : s.cfg = t.cfg) :
    Simulator.reset ops s = Simulator.reset ops t := by
  unfold Simulator.reset Simulator.addPrimordium GaussianRNG.reset
  rw [h]

/-! ## Claim theorems -/

/-- Claim C1: for every pair of states sharing a configuration (in
particular, for one simulator run twice), `reset()` followed by the same
number of `step()` calls produces identical organ sequences — equality of
the `Primordium` lists gives equal `r`, `theta`, `ct` and `st` at every
index. Determinism holds for every numeric environment `Ops`, hence for the
fixed one of a real engine, bit-for-bit in the exact-rational model. -/
theorem run_deterministic (ops : Ops) (s t : SimState) (n : ℕ) (h : s.cfg = t.cfg) :
    (Simulator.stepN ops n (Simulator.reset ops s)).primordia
      = (Simulator.stepN ops n (Simulator.reset ops t)).primordia := by
  rw [reset_eq_of_cfg_eq ops h]

/-- Witness for C1: a fresh state and a dirty state (stale organs, boundary
and generator) with the same configuration agree after `reset` + 2 steps. -/
theorem run_deterministic_witness :
    (Simulator.stepN opsZero 2 (Simulator.reset opsZero simA)).primordia
      = (Simulator.stepN opsZero 2 (Simulator.reset opsZero simB)).primordia :=
  run_deterministic opsZero simA simB 2 rfl

/-- Claim C7: `GaussianRNG.reset(seed)` discards any cached spare sample and
reinitializes the mulberry32 state, so the post-reset sample stream equals
that of a freshly constructed generator with the same seed, for every prior
generator state (in particular no sample is skipped). -/
theorem gauss_reset_fresh (ops : Ops) (g : GaussState) (seed n : ℕ) :
    GaussianRNG.samples ops n (GaussianRNG.reset g seed)
      = GaussianRNG.samples ops n (GaussianRNG.init seed) := rfl

/-- Claim C4: the compiled custom kernel is a total function (it is defined
by `match`, never raising); whenever the underlying expression evaluation
throws or yields a non-finite result it returns the fixed sentinel
`CUSTOM_BAD_PENALTY`, and that sentinel is at least `1e20`. -/
theorem custom_kernel_total (e : ℚ → EvalResult) (d : ℚ)
    (h : e d = EvalResult.err ∨ e d = EvalResult.nonfinite) :
    customKernelFn e d = CUSTOM_BAD_PENALTY ∧ (10 ^ 20 : ℚ) ≤ CUSTOM_BAD_PENALTY := by
  refine ⟨?_, by unfold CUSTOM_BAD_PENALTY; norm_num⟩
  unfold customKernelFn
  rcases h with h | h <;> rw [h]

/-- Witness for C4: an always-throwing expression evaluates to the sentinel. -/
theorem custom_kernel_total_witness :
    customKernelFn (fun _ => EvalResult.err) 0 = CUSTOM_BAD_PENALTY
    ∧ (10 ^ 20 : ℚ) ≤ CUSTOM_BAD_PENALTY :=
  custom_kernel_total (fun _ => EvalResult.err) 0 (Or.inl rfl)

/-- Claim C10 (implicit): a compiled custom kernel always has
`hasHardCore = false` and `d0 = 0`, so the exclusion short-circuit in the
field summation never fires for custom kernels: the field sum is exactly the
accumulated sum of per-organ contributions, and the configured `d0` reaches
the field only through the expression itself. -/
theorem custom_kernel_no_exclusion (ops : Ops) (expr : String)
    (params : CustomKernelParams) (cx cy acc : ℚ) (l : List (ℚ × ℚ)) :
    (compileKernel ops (KernelConfig.custom expr params)).hasHardCore = false
    ∧ (compileKernel ops (KernelConfig.custom expr params)).d0 = 0
    ∧ Simulator.fieldLoop ops (compileKernel ops (KernelConfig.custom expr params)) cx cy l acc
        = acc + (l.map (fun q =>
            customKernelFn (ops.customEval expr params)
              (ops.sqrt ((cx - q.1) * (cx - q.1) + (cy - q.2) * (cy - q.2))))).sum := by
  refine ⟨rfl, rfl, ?_⟩
  induction l generalizing acc with
  | nil => simp [Simulator.fieldLoop]
  | cons q rest ih =>
      simp only [Simulator.fieldLoop, List.map_cons, List.sum_cons]
      rw [if_neg (by simp [compileKernel])]
      rw [ih]
      show acc + customKernelFn (ops.customEval expr params) _
            + (rest.map _).sum = _
      ring

/-- Claim C9: once the organ count has reached `totalPrimordia`, `step()` is
the identity on the whole engine state (no organ appended, no drift, no
boundary motion, no generator advance); and in general the organ count is
non-decreasing in step count and bounded by `max count totalPrimordia`, so
it never exceeds the target. -/
theorem step_complete_frame (ops : Ops) (s : SimState) :
    (s.cfg.totalPrimordia ≤ s.primordia.length → Simulator.step ops s = s)
    ∧ s.primordia.length ≤ (Simulator.step ops s).primordia.length
    ∧ (Simulator.step ops s).primordia.length
        ≤ max s.primordia.length s.cfg.totalPrimordia := by
  refine ⟨step_of_complete ops s, ?_, ?_⟩ <;>
    by_cases h : s.cfg.totalPrimordia ≤ s.primordia.length
  · rw [step_of_complete ops s h]
  · rw [step_length_of_lt ops s (by omega)]; omega
  · rw [step_of_complete ops s h]; omega
  · rw [step_length_of_lt ops s (by omega)]; omega

/-- Witness for C9: on a concrete complete state the step is a no-op and the
count bounds hold. -/
theorem step_complete_frame_witness :
    Simulator.step opsZero simFull = simFull
    ∧ simFull.primordia.length ≤ (Simulator.step opsZero simFull).primordia.length
    ∧ (Simulator.step opsZero simFull).primordia.length
        ≤ max simFull.primordia.length simFull.cfg.totalPrimordia :=
  ⟨(step_complete_frame opsZero simFull).1 (by decide),
   (step_complete_frame opsZero simFull).2.1,
   (step_complete_frame opsZero simFull).2.2⟩

/-- The `runBatch` while loop, run with enough fuel, performs exactly
`batchEnd - length` iterations (each growing the history by one organ) and
adds that to the running count. -/
theorem runBatchLoop_spec (ops : Ops) :
    ∀ (fuel : ℕ) (s : SimState) (batchEnd c : ℕ),
      batchEnd ≤ s.cfg.totalPrimordia → batchEnd - s.primordia.length ≤ fuel →
      (Simulator.runBatchLoop ops fuel s batchEnd c).2
          = c + (batchEnd - s.primordia.length)
      ∧ (Simulator.runBatchLoop ops fuel s batchEnd c).1.primordia.length
          = max s.primordia.length batchEnd := by
  intro fuel
  induction fuel with
  | zero =>
      intro s batchEnd c hle hf
      constructor
      · show c = c + (batchEnd - s.primordia.length)
        omega
      · show s.primordia.length = max s.primordia.length batchEnd
        omega
  | succ f ih =>
      intro s batchEnd c hle hf
      unfold Simulator.runBatchLoop
      by_cases h : s.primordia.length < batchEnd
      · rw [if_pos h]
        have hstep := step_length_of_lt ops s (by omega)
        have hcfg : (Simulator.step ops s).cfg = s.cfg := step_cfg ops s
        have hrec := ih (Simulator.step ops s) batchEnd (c + 1)
          (by rw [hcfg]; exact hle) (by omega)
        rw [hstep] at hrec
        constructor
        · rw [hrec.1]; omega
        · rw [hrec.2]; omega
      · rw [if_neg h]
        constructor
        · show c = c + (batchEnd - s.primordia.length)
          omega
        · show s.primordia.length = max s.primordia.length batchEnd
          omega

/-- Claim C8: `runBatch()` performs exactly
`min batchSize (totalPrimordia - organCount)` steps — zero when the run is
already complete — returns that number, and each performed step appends one
organ. -/
theorem runBatch_count (ops : Ops) (s : SimState) :
    (Simulator.runBatch ops s).2
      = min s.cfg.batchSize (s.cfg.totalPrimordia - s.primordia.length)
    ∧ (Simulator.runBatch ops s).1.primordia.length
      = s.primordia.length + (Simulator.runBatch ops s).2 := by
  have h := runBatchLoop_spec ops s.cfg.batchSize s
    (min (s.primordia.length + s.cfg.batchSize) s.cfg.totalPrimordia) 0
    (min_le_right _ _) (by omega)
  unfold Simulator.runBatch
  constructor
  · rw [h.1]; omega
  · rw [h.2, h.1]; omega

/-- Invariant of the minimum scan: seeded with best-so-far `(b, bi)` and
base index `i`, the scan returns either the seed (when no later value beats
it strictly) or the value at the first position that is strictly below the
seed and weakly below everything else. -/
theorem scanMinAux_spec (l : List ℚ) :
    ∀ (i : ℕ) (b : ℚ) (bi : ℕ),
      ∃ v m, Simulator.scanMinAux l i (some (b, bi)) = some (v, m)
        ∧ ((v = b ∧ m = bi ∧ ∀ k, k < l.length → b ≤ l.getD k 0)
           ∨ (v < b ∧ ∃ k, k < l.length ∧ m = i + k ∧ l.getD k 0 = v
               ∧ (∀ k2, k2 < l.length → v ≤ l.getD k2 0)
               ∧ (∀ k2, k2 < k → v < l.getD k2 0))) := by
  induction l with
  | nil =>
      intro i b bi
      exact ⟨b, bi, rfl, Or.inl ⟨rfl, rfl, fun k hk => absurd hk (by simp)⟩⟩
  | cons a rest ih =>
      intro i b bi
      rw [show Simulator.scanMinAux (a :: rest) i (some (b, bi))
            = Simulator.scanMinAux rest (i + 1) (some (if a < b then (a, i) else (b, bi)))
          from rfl]
      by_cases h : a < b
      · rw [if_pos h]
        obtain ⟨v, m, heq, hcases⟩ := ih (i + 1) a i
        refine ⟨v, m, heq, Or.inr ?_⟩
        rcases hcases with ⟨hv, hm, hall⟩ | ⟨hv, k, hk, hm, hval, hall, hfirst⟩
        · refine ⟨by rw [hv]; exact h, 0, by simp, by omega, by simp [hv], ?_, ?_⟩
          · intro k2 hk2
            match k2 with
            | 0 => simp [hv]
            | k2 + 1 =>
                rw [List.getD_cons_succ, hv]
                exact hall k2 (by simpa using hk2)
          · intro k2 hk2; omega
        · refine ⟨lt_trans hv h, k + 1, by simpa using hk, by omega,
            by rw [List.getD_cons_succ]; exact hval, ?_, ?_⟩
          · intro k2 hk2
            match k2 with
            | 0 => rw [List.getD_cons_zero]; exact le_of_lt hv
            | k2 + 1 =>
                rw [List.getD_cons_succ]
                exact hall k2 (by simpa using hk2)
          · intro k2 hk2
            match k2 with
            | 0 => rw [List.getD_cons_zero]; exact hv
            | k2 + 1 =>
                rw [List.getD_cons_succ]
                exact hfirst k2 (by omega)
      · rw [if_neg h]
        obtain ⟨v, m, heq, hcases⟩ := ih (i + 1) b bi
        refine ⟨v, m, heq, ?_⟩
        rcases hcases with ⟨hv, hm, hall⟩ | ⟨hv, k, hk, hm, hval, hall, hfirst⟩
        · refine Or.inl ⟨hv, hm, ?_⟩
          intro k hk
          match k with
          | 0 => rw [List.getD_cons_zero]; exact le_of_not_lt h
          | k + 1 =>
              rw [List.getD_cons_succ]
              exact hall k (by simpa using hk)
        · refine Or.inr ⟨hv, k + 1, by simpa using hk, by omega,
            by rw [List.getD_cons_succ]; exact hval, ?_, ?_⟩
          · intro k2 hk2
            match k2 with
            | 0 => rw [List.getD_cons_zero]; exact le_of_lt (lt_of_lt_of_le hv (le_of_not_lt h))
            | k2 + 1 =>
                rw [List.getD_cons_succ]
                exact hall k2 (by simpa using hk2)
          · intro k2 hk2
            match k2 with
            | 0 => rw [List.getD_cons_zero]; exact lt_of_lt_of_le hv (le_of_not_lt h)
            | k2 + 1 =>
                rw [List.getD_cons_succ]
                exact hfirst k2 (by omega)

/-- The full specification of `discreteMin` on a nonempty list: it returns
the minimal value, at the first index attaining it. -/
theorem discreteMin_spec (vals : List ℚ) (hne : vals ≠ []) :
    ∃ v m, Simulator.discreteMin vals = some (v, m)
      ∧ m < vals.length ∧ vals.getD m 0 = v
      ∧ (∀ k, k < vals.length → v ≤ vals.getD k 0)
      ∧ (∀ k, k < m → v < vals.getD k 0) := by
  match vals with
  | [] => exact absurd rfl hne
  | a :: rest =>
      have hscan : Simulator.discreteMin (a :: rest)
          = Simulator.scanMinAux rest 1 (some (a, 0)) := rfl
      obtain ⟨v, m, heq, hcases⟩ := scanMinAux_spec rest 1 a 0
      rw [hscan]
      refine ⟨v, m, heq, ?_⟩
      rcases hcases with ⟨hv, hm, hall⟩ | ⟨hv, k, hk, hm, hval, hall, hfirst⟩
      · subst hv
        subst hm
        refine ⟨by simp, List.getD_cons_zero, ?_, fun k hk => absurd hk (by omega)⟩
        intro k hk
        match k with
        | 0 => rw [List.getD_cons_zero]
        | k + 1 =>
            rw [List.getD_cons_succ]
            exact hall k (by simpa using hk)
      · subst hm
        refine ⟨by simp; omega, by rw [show 1 + k = k + 1 by omega, List.getD_cons_succ]; exact hval, ?_, ?_⟩
        · intro k2 hk2
          match k2 with
          | 0 => rw [List.getD_cons_zero]; exact le_of_lt hv
          | k2 + 1 =>
              rw [List.getD_cons_succ]
              exact hall k2 (by simpa using hk2)
        · intro k2 hk2
          match k2 with
          | 0 => rw [List.getD_cons_zero]; exact hv
          | k2 + 1 =>
              rw [List.getD_cons_succ]
              exact hfirst k2 (by omega)

/-- Claim C6: the discrete minimum is found by the single ascending scan
with strict less-than comparison, so the returned index is in range, holds
the minimal field value, and precedes every other index attaining it (ties
are resolved toward the lowest index). This is the scan
`findMinimumFieldAngle` runs over the candidate field values of every
field-evaluation pass. -/
theorem discreteMin_first_min (vals : List ℚ) (v : ℚ) (m j : ℕ)
    (h : Simulator.discreteMin vals = some (v, m)) (hj : j < vals.length) :
    m < vals.length ∧ vals.getD m 0 = v
    ∧ v ≤ vals.getD j 0 ∧ (j < m → v < vals.getD j 0) := by
  have hne : vals ≠ [] := by
    intro hnil
    rw [hnil] at h
    exact absurd h (by simp [Simulator.discreteMin, Simulator.scanMinAux])
  obtain ⟨v', m', heq, hlt, hat, hmin, hfirst⟩ := discreteMin_spec vals hne
  rw [h] at heq
  have hpair := Option.some.inj heq
  have hv : v = v' := congrArg Prod.fst hpair
  have hm : m = m' := congrArg Prod.snd hpair
  subst hv
  subst hm
  exact ⟨hlt, hat, hmin j hj, fun hjm => hfirst j hjm⟩

/-- Witness for C6: on the list `[3, 1, 2, 1]` the minimum 1 is reported at
index 1, not at the later tying index 3. -/
theorem discreteMin_first_min_witness :
    1 < ([3, 1, 2, 1] : List ℚ).length ∧ ([3, 1, 2, 1] : List ℚ).getD 1 0 = 1
    ∧ (1 : ℚ) ≤ ([3, 1, 2, 1] : List ℚ).getD 3 0
    ∧ (3 < 1 → (1 : ℚ) < ([3, 1, 2, 1] : List ℚ).getD 3 0) :=
  discreteMin_first_min [3, 1, 2, 1] 1 1 3 (by decide) (by decide)

/-- A refined index between `-1/2` and `n - 1/2` is converted to an angle in
`[0, twoPi)` by the two conditional corrections of the source. -/
theorem indexToAngle_bounds (n : ℕ) (idx twoPi : ℚ) (hn : 1 ≤ n) (hp : 0 < twoPi)
    (h1 : -(1 / 2 : ℚ) ≤ idx) (h2 : idx ≤ (n : ℚ) - 1 / 2) :
    0 ≤ Simulator.indexToAngle twoPi n idx
    ∧ Simulator.indexToAngle twoPi n idx < twoPi := by
  have hn0 : (0 : ℚ) < (n : ℚ) := by exact_mod_cast hn
  have hu : 0 < twoPi / (n : ℚ) := div_pos hp hn0
  have hnu : (n : ℚ) * (twoPi / (n : ℚ)) = twoPi := mul_div_cancel₀ twoPi (ne_of_gt hn0)
  have huP : twoPi / (n : ℚ) ≤ twoPi := div_le_self (le_of_lt hp) (by exact_mod_cast hn)
  have htlo : -(twoPi / (n : ℚ)) / 2 ≤ idx * (twoPi / (n : ℚ)) := by
    have := mul_le_mul_of_nonneg_right h1 (le_of_lt hu)
    calc -(twoPi / (n : ℚ)) / 2 = -(1 / 2 : ℚ) * (twoPi / (n : ℚ)) := by ring
    _ ≤ idx * (twoPi / (n : ℚ)) := this
  have hthi : idx * (twoPi / (n : ℚ)) ≤ twoPi - (twoPi / (n : ℚ)) / 2 := by
    have := mul_le_mul_of_nonneg_right h2 (le_of_lt hu)
    calc idx * (twoPi / (n : ℚ)) ≤ ((n : ℚ) - 1 / 2) * (twoPi / (n : ℚ)) := this
    _ = (n : ℚ) * (twoPi / (n : ℚ)) - (twoPi / (n : ℚ)) / 2 := by ring
    _ = twoPi - (twoPi / (n : ℚ)) / 2 := by rw [hnu]
  simp only [Simulator.indexToAngle]
  by_cases hneg : idx * (twoPi / (n : ℚ)) < 0
  · rw [if_pos hneg]
    have hin : ¬ twoPi ≤ idx * (twoPi / (n : ℚ)) + twoPi := by linarith
    rw [if_neg hin]
    constructor <;> linarith
  · rw [if_neg hneg]
    have hlt : idx * (twoPi / (n : ℚ)) < twoPi := by linarith
    rw [if_neg (not_le.mpr hlt)]
    exact ⟨le_of_not_lt hneg, hlt⟩

/-- Claim C3: in every refinement pass, when the parabolic denominator
`2*(f0 - 2*f1 + f2)` has absolute value at most `1e-12` the raw discrete
index is used unrefined; otherwise the offset `(f0 - f2)/denominator`,
clamped to `[-1/2, 1/2]`, is added to it; in all cases the refined index
lies within `1/2` of the discrete index `m`, and the resulting angle lies in
`[0, twoPi)`. -/
theorem parabolic_refinement (m n : ℕ) (f0 f1 f2 twoPi : ℚ)
    (hm : m < n) (hp : 0 < twoPi) :
    (|2 * (f0 - 2 * f1 + f2)| ≤ 1 / 10 ^ 12 →
        Simulator.refineIndex m f0 f1 f2 = (m : ℚ))
    ∧ (1 / 10 ^ 12 < |2 * (f0 - 2 * f1 + f2)| →
        Simulator.refineIndex m f0 f1 f2
          = (m : ℚ) + max (-(1 : ℚ) / 2) (min (1 / 2) ((f0 - f2) / (2 * (f0 - 2 * f1 + f2)))))
    ∧ |Simulator.refineIndex m f0 f1 f2 - (m : ℚ)| ≤ 1 / 2
    ∧ 0 ≤ Simulator.indexToAngle twoPi n (Simulator.refineIndex m f0 f1 f2)
    ∧ Simulator.indexToAngle twoPi n (Simulator.refineIndex m f0 f1 f2) < twoPi := by
  have hmn : (m : ℚ) ≤ (n : ℚ) - 1 := by
    have : ((m : ℕ) : ℚ) + 1 ≤ (n : ℚ) := by exact_mod_cast hm
    linarith
  have hm0 : (0 : ℚ) ≤ (m : ℚ) := Nat.cast_nonneg m
  have hclamp : ∀ q : ℚ, -(1 / 2 : ℚ) ≤ max (-(1 : ℚ) / 2) (min (1 / 2) q)
      ∧ max (-(1 : ℚ) / 2) (min (1 / 2) q) ≤ 1 / 2 := by
    intro q
    constructor
    · calc -(1 / 2 : ℚ) = -(1 : ℚ) / 2 := by ring
      _ ≤ _ := le_max_left _ _
    · exact max_le (by norm_num) (min_le_left _ _)
  have hrange : -(1 / 2 : ℚ) ≤ Simulator.refineIndex m f0 f1 f2 - (m : ℚ)
      ∧ Simulator.refineIndex m f0 f1 f2 - (m : ℚ) ≤ 1 / 2 := by
    unfold Simulator.refineIndex
    by_cases hd : 1 / 10 ^ 12 < |2 * (f0 - 2 * f1 + f2)|
    · rw [if_pos hd]
      obtain ⟨hlo, hhi⟩ := hclamp ((f0 - f2) / (2 * (f0 - 2 * f1 + f2)))
      constructor <;> [linarith; linarith]
    · rw [if_neg hd]
      constructor <;> norm_num
  have hangle := indexToAngle_bounds n (Simulator.refineIndex m f0 f1 f2) twoPi
    (by omega) hp (by linarith [hrange.1]) (by linarith [hrange.2])
  refine ⟨?_, ?_, abs_le.mpr ⟨by linarith [hrange.1], hrange.2⟩, hangle.1, hangle.2⟩
  · intro hle
    unfold Simulator.refineIndex
    rw [if_neg (not_lt.mpr hle)]
  · intro hgt
    unfold Simulator.refineIndex
    rw [if_pos hgt]

/-- Witness for C3: a concrete refinement pass (`m = 3`, `n = 36`, a strict
parabola through `1, 0, 1`, `twoPi = 710/113`). -/
theorem parabolic_refinement_witness :
    (|2 * ((1 : ℚ) - 2 * 0 + 1)| ≤ 1 / 10 ^ 12 →
        Simulator.refineIndex 3 1 0 1 = ((3 : ℕ) : ℚ))
    ∧ (1 / 10 ^ 12 < |2 * ((1 : ℚ) - 2 * 0 + 1)| →
        Simulator.refineIndex 3 1 0 1
          = ((3 : ℕ) : ℚ) + max (-(1 : ℚ) / 2) (min (1 / 2) (((1 : ℚ) - 1) / (2 * (1 - 2 * 0 + 1)))))
    ∧ |Simulator.refineIndex 3 1 0 1 - ((3 : ℕ) : ℚ)| ≤ 1 / 2
    ∧ 0 ≤ Simulator.indexToAngle (710 / 113) 36 (Simulator.refineIndex 3 1 0 1)
    ∧ Simulator.indexToAngle (710 / 113) 36 (Simulator.refineIndex 3 1 0 1) < 710 / 113 :=
  parabolic_refinement 3 36 1 0 1 (710 / 113) (by decide) (by norm_num)

/-- The configuration is unchanged by `stepN`. -/
theorem stepN_cfg (ops : Ops) (n : ℕ) (s : SimState) :
    (Simulator.stepN ops n s).cfg = s.cfg := by
  induction n with
  | zero => rfl
  | succ n ih =>
      rw [show Simulator.stepN ops (n + 1) s
            = Simulator.step ops (Simulator.stepN ops n s) from rfl,
          step_cfg, ih]

/-- After `reset`, the radii are trivially non-increasing and bounded below
by the ring radius. -/
theorem reset_radii (ops : Ops) (s : SimState) :
    List.Pairwise (fun a b : Primordium => b.r ≤ a.r) (Simulator.reset ops s).primordia
    ∧ ∀ p ∈ (Simulator.reset ops s).primordia, s.cfg.R ≤ p.r := by
  constructor
  · show List.Pairwise _ ([] ++ [_])
    simp
  · intro p hp
    have hp' : p = { r := s.cfg.R, theta := 0, ct := ops.cos 0, st := ops.sin 0 } := by
      simpa [Simulator.reset, Simulator.addPrimordium] using hp
    rw [hp']

/-- One step preserves the radius invariant (radii non-increasing with birth
index, all at least `R`), as long as the drift per step is nonnegative. -/
theorem step_radii (ops : Ops) (s : SimState) (hd : 0 ≤ s.cfg.v * s.cfg.dt)
    (hp : List.Pairwise (fun a b : Primordium => b.r ≤ a.r) s.primordia)
    (hb : ∀ p ∈ s.primordia, s.cfg.R ≤ p.r) :
    List.Pairwise (fun a b : Primordium => b.r ≤ a.r) (Simulator.step ops s).primordia
    ∧ ∀ p ∈ (Simulator.step ops s).primordia, s.cfg.R ≤ p.r := by
  by_cases hc : s.cfg.totalPrimordia ≤ s.primordia.length
  · rw [step_of_complete ops s hc]
    exact ⟨hp, hb⟩
  · obtain ⟨theta, heq⟩ := step_primordia_of_lt ops s (by omega)
    rw [heq]
    constructor
    · rw [List.pairwise_append]
      refine ⟨?_, List.pairwise_singleton _ _, ?_⟩
      · rw [List.pairwise_map]
        refine hp.imp ?_
        intro a b hab
        show b.r + s.cfg.v * s.cfg.dt ≤ a.r + s.cfg.v * s.cfg.dt
        linarith
      · intro a ha b hbm
        have hb' : b = { r := s.cfg.R, theta := theta, ct := ops.cos theta, st := ops.sin theta } := by
          simpa using hbm
        obtain ⟨p, hpmem, rfl⟩ := List.mem_map.mp ha
        rw [hb']
        show s.cfg.R ≤ p.r + s.cfg.v * s.cfg.dt
        have := hb p hpmem
        linarith
    · intro p hpm
      rw [List.mem_append] at hpm
      rcases hpm with hpm | hpm
      · obtain ⟨q, hq, rfl⟩ := List.mem_map.mp hpm
        show s.cfg.R ≤ q.r + s.cfg.v * s.cfg.dt
        have := hb q hq
        linarith
      · have hp' : p = { r := s.cfg.R, theta := theta, ct := ops.cos theta, st := ops.sin theta } := by
          simpa using hpm
        rw [hp']

/-- The radius invariant holds in every state reachable by `reset` + `n`
steps. -/
theorem stepN_radii (ops : Ops) (s : SimState) (n : ℕ) (hd : 0 ≤ s.cfg.v * s.cfg.dt) :
    List.Pairwise (fun a b : Primordium => b.r ≤ a.r)
      (Simulator.stepN ops n (Simulator.reset ops s)).primordia
    ∧ ∀ p ∈ (Simulator.stepN ops n (Simulator.reset ops s)).primordia, s.cfg.R ≤ p.r := by
  induction n with
  | zero => exact reset_radii ops s
  | succ n ih =>
      have hcfg : (Simulator.stepN ops n (Simulator.reset ops s)).cfg = s.cfg := by
        rw [stepN_cfg]
        rfl
      have hstep := step_radii ops (Simulator.stepN ops n (Simulator.reset ops s))
        (by rw [hcfg]; exact hd) ih.1 (by rw [hcfg]; exact ih.2)
      rw [hcfg] at hstep
      exact hstep

/-- Claim C5: in every state reachable from `reset()` by any number of
`step()` calls (with `v > 0` and `dt > 0`), radii are non-increasing with
birth index (`r(i) ≥ r(j)` for `i ≤ j`); consequently the active set
(`r ≤ maxR`) is a contiguous suffix: if organ `i` is active, so is every
later organ `j`. -/
theorem radii_monotone (ops : Ops) (s : SimState) (n i j : ℕ)
    (hv : 0 < s.cfg.v) (hdt : 0 < s.cfg.dt) (hij : i ≤ j)
    (hj : j < (Simulator.stepN ops n (Simulator.reset ops s)).primordia.length) :
    ((Simulator.stepN ops n (Simulator.reset ops s)).primordia.map Primordium.r).getD j 0
      ≤ ((Simulator.stepN ops n (Simulator.reset ops s)).primordia.map Primordium.r).getD i 0
    ∧ (((Simulator.stepN ops n (Simulator.reset ops s)).primordia.map Primordium.r).getD i 0
          ≤ s.cfg.maxR
        → ((Simulator.stepN ops n (Simulator.reset ops s)).primordia.map Primordium.r).getD j 0
          ≤ s.cfg.maxR) := by
  have hd : 0 ≤ s.cfg.v * s.cfg.dt := le_of_lt (mul_pos hv hdt)
  have hpw := (stepN_radii ops s n hd).1
  have hpw' : List.Pairwise (fun a b : ℚ => b ≤ a)
      ((Simulator.stepN ops n (Simulator.reset ops s)).primordia.map Primordium.r) := by
    rw [List.pairwise_map]
    exact hpw
  have hjl : j < ((Simulator.stepN ops n (Simulator.reset ops s)).primordia.map Primordium.r).length := by
    simpa using hj
  have hil : i < ((Simulator.stepN ops n (Simulator.reset ops s)).primordia.map Primordium.r).length := by
    omega
  have hmain : ((Simulator.stepN ops n (Simulator.reset ops s)).primordia.map Primordium.r).getD j 0
      ≤ ((Simulator.stepN ops n (Simulator.reset ops s)).primordia.map Primordium.r).getD i 0 := by
    rcases Nat.lt_or_ge i j with hlt | hge
    · have hget := List.pairwise_iff_get.mp hpw' ⟨i, hil⟩ ⟨j, hjl⟩ hlt
      rw [List.getD_eq_getElem _ _ hjl, List.getD_eq_getElem _ _ hil]
      exact hget
    · have : i = j := le_antisymm hij hge
      rw [this]
  exact ⟨hmain, fun hmax => le_trans hmain hmax⟩

/-- Witness for C5: a concrete run (`reset` + 2 steps over `cfgSmall`):
organ 1's radius is at most organ 0's, and activity propagates forward. -/
theorem radii_monotone_witness :
    ((Simulator.stepN opsZero 2 (Simulator.reset opsZero simA)).primordia.map Primordium.r).getD 1 0
      ≤ ((Simulator.stepN opsZero 2 (Simulator.reset opsZero simA)).primordia.map Primordium.r).getD 0 0
    ∧ (((Simulator.stepN opsZero 2 (Simulator.reset opsZero simA)).primordia.map Primordium.r).getD 0 0
          ≤ simA.cfg.maxR
        → ((Simulator.stepN opsZero 2 (Simulator.reset opsZero simA)).primordia.map Primordium.r).getD 1 0
          ≤ simA.cfg.maxR) :=
  radii_monotone opsZero simA 2 0 1 (by norm_num [simA, cfgSmall, Simulator.initState])
    (by norm_num [simA, cfgSmall, Simulator.initState]) (by omega) (by decide)

/-- The state `step()` evaluates the field on has the same configuration. -/
theorem prepped_cfg (s : SimState) : (Simulator.prepped s).cfg = s.cfg := rfl

/-- The candidate value list has one entry per candidate angle. -/
theorem candidateFieldValues_length (ops : Ops) (s : SimState) :
    (Simulator.candidateFieldValues ops s).length = s.cfg.angleSamples := by
  unfold Simulator.candidateFieldValues
  rw [List.length_map, List.length_range]

/-- Entry `k` of the candidate value list is the field at candidate `k`. -/
theorem candidateFieldValues_getD (ops : Ops) (s : SimState) (k : ℕ)
    (hk : k < s.cfg.angleSamples) :
    (Simulator.candidateFieldValues ops s).getD k 0 = Simulator.fieldAtIndex ops s k := by
  unfold Simulator.candidateFieldValues
  rw [List.getD_eq_getElem _ _ (by rw [List.length_map, List.length_range]; exact hk)]
  rw [List.getElem_map, List.getElem_range]

/-- A single active organ within the exclusion radius short-circuits the
field sum to the penalty sentinel. -/
theorem fieldLoop_single_penalty (ops : Ops) (k : CompiledKernel) (cx cy x y : ℚ)
    (hh : k.hasHardCore = true)
    (hd : ops.sqrt ((cx - x) * (cx - x) + (cy - y) * (cy - y)) < k.d0) :
    Simulator.fieldLoop ops k cx cy [(x, y)] 0 = HARD_CORE_PENALTY := by
  unfold Simulator.fieldLoop
  rw [if_pos ⟨hh, hd⟩]

/-- Claim C2 (amended form): with any kernel, whenever at least one
candidate angle's field value is below the sentinel, the field value at the
discrete angle chosen by `step()`'s minimum scan is strictly below the
sentinel — in particular it is not the exclusion penalty. (The unamended
claim fails when every candidate is penalized; see the counterexample.) -/
theorem exclusion_amended (ops : Ops) (s : SimState) (j : ℕ)
    (hj : j < s.cfg.angleSamples)
    (hbelow : Simulator.fieldAtIndex ops (Simulator.prepped s) j < HARD_CORE_PENALTY) :
    Simulator.chosenFieldValue ops s < HARD_CORE_PENALTY
    ∧ Simulator.chosenFieldValue ops s ≠ HARD_CORE_PENALTY := by
  have hj' : j < (Simulator.prepped s).cfg.angleSamples := by rw [prepped_cfg]; exact hj
  have hlen : (Simulator.candidateFieldValues ops (Simulator.prepped s)).length
      = s.cfg.angleSamples := by
    rw [candidateFieldValues_length, prepped_cfg]
  have hne : Simulator.candidateFieldValues ops (Simulator.prepped s) ≠ [] := by
    intro h0
    rw [h0] at hlen
    simp at hlen
    omega
  obtain ⟨v, m, heq, hm, hat, hmin, _⟩ := discreteMin_spec _ hne
  have hm' : m < (Simulator.prepped s).cfg.angleSamples := by
    rw [prepped_cfg, ← hlen]
    exact hm
  have hcei : Simulator.chosenIndex ops s = m := by
    unfold Simulator.chosenIndex
    rw [heq]
  have hcfv : Simulator.chosenFieldValue ops s = v := by
    unfold Simulator.chosenFieldValue
    rw [hcei, ← candidateFieldValues_getD ops (Simulator.prepped s) m hm', hat]
  have hvj : v ≤ Simulator.fieldAtIndex ops (Simulator.prepped s) j := by
    rw [← candidateFieldValues_getD ops (Simulator.prepped s) j hj']
    exact hmin j (by rw [hlen]; exact hj)
  rw [hcfv]
  exact ⟨lt_of_le_of_lt hvj hbelow, ne_of_lt (lt_of_le_of_lt hvj hbelow)⟩

/-- Witness for C2's amended theorem: over `cfgSmall` with no organs yet,
candidate 0 has field value 0, so the chosen value stays below the
sentinel. -/
theorem exclusion_amended_witness :
    Simulator.chosenFieldValue opsZero simA < HARD_CORE_PENALTY
    ∧ Simulator.chosenFieldValue opsZero simA ≠ HARD_CORE_PENALTY :=
  exclusion_amended opsZero simA 0 (by decide)
    (by show (0 : ℚ) < HARD_CORE_PENALTY; unfold HARD_CORE_PENALTY; norm_num)

/-- The candidate angles of `cfgCE` all lie in `[0, 62/10]`. -/
theorem ce_candAngle_bound (i : ℕ) (hi : i < 36) :
    0 ≤ Simulator.candAngle opsCE cfgCE i ∧ Simulator.candAngle opsCE cfgCE i ≤ 62 / 10 := by
  unfold Simulator.candAngle
  have hi' : (i : ℚ) ≤ 35 := by exact_mod_cast Nat.le_of_lt_succ hi
  constructor
  · apply mul_nonneg (Nat.cast_nonneg i)
    norm_num [opsCE, cfgCE]
  · calc (i : ℚ) * (2 * opsCE.pi / (cfgCE.angleSamples : ℚ))
        ≤ 35 * (2 * opsCE.pi / (cfgCE.angleSamples : ℚ)) := by
          apply mul_le_mul_of_nonneg_right hi'
          norm_num [opsCE, cfgCE]
    _ ≤ 62 / 10 := by norm_num [opsCE, cfgCE]

/-- For any angle value in `[0, 62/10]`, the squared distance between the
`cfgCE` candidate point and the single drifted organ at `(2, 0)` is at most
2100 (using the `opsCE` trig stand-ins). -/
theorem ce_dist_bound (q : ℚ) (h0 : 0 ≤ q) (h1 : q ≤ 62 / 10) :
    (1 * (1 - q ^ 2 / 2) - 2) * (1 * (1 - q ^ 2 / 2) - 2)
      + (1 * (q - q ^ 3 / 6) - 0) * (1 * (q - q ^ 3 / 6) - 0) ≤ 2100 := by
  have h2 : q ^ 2 ≤ (62 / 10) ^ 2 := pow_le_pow_left₀ h0 h1 2
  have h6 : q ^ 6 ≤ (62 / 10) ^ 6 := pow_le_pow_left₀ h0 h1 6
  have h4 : 0 ≤ q ^ 4 := by positivity
  nlinarith [h2, h6, h4]

/-- The `opsCE` square-root stand-in sends arguments up to 2100 to values
far below the exclusion radius `10^6`. -/
theorem opsCE_sqrt_lt (x : ℚ) (hx : x ≤ 2100) : opsCE.sqrt x < 1000000 := by
  show (if x ≤ 0 then (0 : ℚ) else ((x + 1) / 2 + x / ((x + 1) / 2)) / 2) < 1000000
  by_cases h : x ≤ 0
  · rw [if_pos h]
    norm_num
  · rw [if_neg h]
    push_neg at h
    have hx1 : (0 : ℚ) < (x + 1) / 2 := by linarith
    have h2 : x / ((x + 1) / 2) ≤ 2 := by
      rw [div_le_iff₀ hx1]
      linarith
    linarith

/-- After `reset` on `cfgCE`, the single organ (drifted to radius 2) is
still active, so the boundary stays at 0. -/
theorem ce_firstActive : (Simulator.prepped sCE).firstActiveIndex = 0 := by
  show (if (3 : ℚ) < 1 + 1 * 1 then (1 : ℕ) else 0) = 0
  norm_num

/-- The active coordinate buffer of the `cfgCE` run at its first step: the
organ born at angle 0 sits at `(2, 0)`. -/
theorem ce_active : Simulator.buildActiveArrays (Simulator.prepped sCE) = [(2, 0)] := by
  have h1 : Simulator.buildActiveArrays (Simulator.prepped sCE)
      = [((1 + 1 * 1) * opsCE.cos 0, (1 + 1 * 1) * opsCE.sin 0)] := by
    unfold Simulator.buildActiveArrays
    rw [ce_firstActive]
    rfl
  rw [h1]
  norm_num [opsCE]

/-- Every candidate angle of the `cfgCE` run is within the exclusion radius
of the active organ, so every candidate field value is the penalty. -/
theorem ce_field_penalty (i : ℕ) (hi : i < 36) :
    Simulator.fieldAtIndex opsCE (Simulator.prepped sCE) i = HARD_CORE_PENALTY := by
  unfold Simulator.fieldAtIndex
  rw [ce_active]
  apply fieldLoop_single_penalty
  · rfl
  · obtain ⟨hq0, hq1⟩ := ce_candAngle_bound i hi
    show opsCE.sqrt ((1 * (1 - (Simulator.candAngle opsCE cfgCE i) ^ 2 / 2) - 2)
          * (1 * (1 - (Simulator.candAngle opsCE cfgCE i) ^ 2 / 2) - 2)
        + (1 * (Simulator.candAngle opsCE cfgCE i - (Simulator.candAngle opsCE cfgCE i) ^ 3 / 6) - 0)
          * (1 * (Simulator.candAngle opsCE cfgCE i - (Simulator.candAngle opsCE cfgCE i) ^ 3 / 6) - 0))
        < 1000000
    exact opsCE_sqrt_lt _ (ce_dist_bound _ hq0 hq1)

/-- All 36 candidate field values of the `cfgCE` run equal the penalty. -/
theorem ce_vals : Simulator.candidateFieldValues opsCE (Simulator.prepped sCE)
    = List.replicate 36 HARD_CORE_PENALTY := by
  rw [List.eq_replicate_iff]
  constructor
  · rw [candidateFieldValues_length]
    rfl
  · intro b hb
    unfold Simulator.candidateFieldValues at hb
    obtain ⟨i, hi, rfl⟩ := List.mem_map.mp hb
    rw [List.mem_range] at hi
    exact ce_field_penalty i hi

/-- The scan over an all-penalty list keeps the first index. -/
theorem ce_min : Simulator.discreteMin (List.replicate 36 HARD_CORE_PENALTY)
    = some (HARD_CORE_PENALTY, 0) := by decide

/-- Counterexample to claim C2 as stated: `cfgCE` passes `validateConfig`
with no blocking error (only the `d0 ≥ R` warning), uses the `hardCoreExp`
kernel, and right after `reset()` (a reachable, non-complete state, so the
next `step()` performs this very field evaluation and then places an organ)
the field value at the chosen angle IS the exclusion-penalty sentinel: every
candidate lies within `d0 = 10^6` of the active organ, so the new organ is
placed within `d0` of it. -/
theorem exclusion_cex :
    validConfig (fun _ => true) cfgCE = true
    ∧ cfgCE.kernel = KernelConfig.hardCoreExp 1 1 1000000
    ∧ sCE.primordia.length < cfgCE.totalPrimordia
    ∧ Simulator.chosenFieldValue opsCE sCE = HARD_CORE_PENALTY := by
  refine ⟨by decide, rfl, by decide, ?_⟩
  have hci : Simulator.chosenIndex opsCE sCE = 0 := by
    unfold Simulator.chosenIndex
    rw [ce_vals, ce_min]
  unfold Simulator.chosenFieldValue
  rw [hci]
  exact ce_field_penalty 0 (by omega)
